import Mathlib

/-!
# Verification of the difflint core

A shallow embedding, in Lean 4, of the difflint linter: a tool that parses a
unified diff into per-file line ranges ("hunks"), lexes directive comments
(`LINT.IF` / `LINT.END`) out of the touched source files, folds them into
rules, and reports rules whose declared targets are inconsistent with the
diff.

Conventions of the embedding:
* Go `int`/`int32` values (line numbers) are modeled as `Int`; no arithmetic
  here can overflow in practice and none of the verified properties depends
  on wrap-around.
* Go maps are modeled as association lists (`List (key × value)`); Go map
  *sets* (`map[K]struct{}`) are modeled as `List K` with membership giving
  the set semantics.  Go's randomized iteration order is determinized to
  list order.
* Fallible Go functions returning `(T, error)` become `Except String T`.
  A Go runtime panic (out-of-range slice index) is modeled as an
  `Except.error` as well.
* File contents are modeled as the list of lines the `bufio.Scanner` loop
  would produce; the file system is an association list from path to lines.
* Go string functions (`strings.HasPrefix`, `strings.Cut`, `filepath.Clean`
  etc.) are re-implemented over `List Char` so that every definition is
  executable and kernel-reducible.
-/

deriving instance DecidableEq for Except

/-! ## Go standard-library string helpers (strings package, Unix filepath) -/

/-- `strings.HasPrefix s pre`. -/
def goStartsWith (s pre : String) : Bool :=
  pre.toList.isPrefixOf s.toList

/-- `strings.HasSuffix s suf`. -/
def goEndsWith (s suf : String) : Bool :=
  suf.toList.isSuffixOf s.toList

/-- `strings.TrimPrefix s pre`. -/
def goTrimStart (s pre : String) : String :=
  if goStartsWith s pre then String.mk (s.toList.drop pre.toList.length) else s

/-- `strings.TrimSuffix s suf`. -/
def goTrimEnd (s suf : String) : String :=
  if goEndsWith s suf then
    String.mk (s.toList.take (s.toList.length - suf.toList.length))
  else s

/-- Split a character list on a separator character; mirrors
`strings.Split` for a one-character separator (never returns `[]`). -/
def splitChar (c : Char) : List Char → List (List Char)
  | [] => [[]]
  | a :: as =>
    match splitChar c as with
    | [] => [[a]]
    | h :: t => if a = c then [] :: h :: t else (a :: h) :: t

/-- `strings.Split s sep` for a one-character separator. -/
def goSplitChar (s : String) (c : Char) : List String :=
  (splitChar c s.toList).map String.mk

/-- `strings.Cut s sep` for a one-character separator: the part before the
first occurrence, the part after it, and whether it occurred. -/
def goCutChar (s : String) (c : Char) : Option (String × String) :=
  match goSplitChar s c with
  | [] => none
  | [_] => none
  | before :: h :: t => some (before, String.intercalate (String.mk [c]) (h :: t))

/-- The component-normalization step of `filepath.Clean` (Unix): drop empty
and `.` components, resolve `..` against the preceding component, keep
leading `..` components of a relative path, drop them at the root. -/
def cleanComps (rooted : Bool) (cs : List String) : List String :=
  cs.foldl (fun acc c =>
    if c = "" ∨ c = "." then acc
    else if c = ".." then
      if acc ≠ [] ∧ acc.getLast? ≠ some ".." then acc.dropLast
      else if rooted then acc else acc ++ [".."]
    else acc ++ [c]) []

/-- `filepath.Clean` (Unix separators). -/
def goClean (s : String) : String :=
  if s = "" then "."
  else
    let rooted := goStartsWith s "/"
    let out := cleanComps rooted (goSplitChar s '/')
    if rooted then "/" ++ String.intercalate "/" out
    else if out = [] then "." else String.intercalate "/" out

/-- `filepath.Ext` (Unix): the suffix starting at the final dot in the final
element of the path; empty if there is none.  Implemented by walking the
reversed character list. -/
def goExtAux (acc : List Char) : List Char → Option (List Char)
  | [] => none
  | c :: cs =>
    if c = '/' then none
    else if c = '.' then some ('.' :: acc)
    else goExtAux (c :: acc) cs

/-- `filepath.Ext` on a string. -/
def goExt (s : String) : String :=
  match goExtAux [] s.toList.reverse with
  | none => ""
  | some l => String.mk l

/-- `filepath.Dir` (Unix): everything up to and including the final slash,
cleaned. -/
def goDir (s : String) : String :=
  goClean (String.mk ((s.toList.reverse.dropWhile (· ≠ '/')).reverse))

/-- Two-argument `filepath.Join` (Unix): skip leading empty elements, join
with `/`, clean. -/
def goJoin (a b : String) : String :=
  if a ≠ "" then goClean (a ++ "/" ++ b)
  else if b ≠ "" then goClean b
  else ""

/-! ## Core data model (difflint.go, rules.go) -/

/-- `Range` represents a range of line numbers (difflint.go). -/
structure Range where
  Start : Int
  End : Int
deriving DecidableEq, Repr, Inhabited

/-- `Intersects` returns true if the given ranges intersect (difflint.go). -/
def Intersects (a b : Range) : Bool :=
  a.Start ≤ b.End && b.Start ≤ a.End

/-- `Hunk` represents a diff hunk (difflint.go). -/
structure Hunk where
  File : String
  Range : Range
deriving DecidableEq, Repr, Inhabited

/-- `Target` (rules.go): an optional file specifier and an optional
identifier. -/
structure Target where
  File : Option String
  ID : Option String
deriving DecidableEq, Repr, Inhabited

/-- `Rule` (rules.go): a guarded hunk, its targets, whether the guard range
is present in the diff, and an optional identifier. -/
structure Rule where
  Hunk : Hunk
  Targets : List Target
  Present : Bool
  ID : Option String
deriving DecidableEq, Repr, Inhabited

/-- `UnsatisfiedRule` (difflint.go): a rule plus the indices of its
unsatisfied targets (the Go `map[int]struct{}` is modeled as the list of
indices, in increasing order). -/
structure UnsatisfiedRule where
  rule : Rule
  UnsatisfiedTargets : List Nat
deriving DecidableEq, Repr, Inhabited

/-! ## TargetKey (difflint.go) -/

/-- `isRelativeToCurrentDirectory` (difflint.go): true for paths that start
with `./` or `../` (and never for paths starting with `/`). -/
def isRelativeToCurrentDirectory (path : String) : Bool :=
  if !goStartsWith path "/" then
    goStartsWith path "./" || goStartsWith path "../"
  else
    false

/-- The file portion of a target key, before the identifier suffix and the
final clean (the `key` variable of Go's `TargetKey` just before the `ID`
check): the target's file if non-empty — resolved against the referencing
file's directory when written as a `./`/`../` relative specifier — and the
referencing file's own path otherwise. -/
def targetKeyBase (pathname : String) (target : Target) : String :=
  match target.File with
  | some f =>
    if f ≠ "" then
      if isRelativeToCurrentDirectory f then goJoin (goDir pathname) f else f
    else pathname
  | none => pathname

/-- `TargetKey` (difflint.go): the canonical string identity of a target. -/
def TargetKey (pathname : String) (target : Target) : String :=
  goClean (targetKeyBase pathname target ++
    match target.ID with
    | some id => ":" ++ id
    | none => "")

/-! ## The satisfaction check (difflint.go, `Check`) -/

/-- The body of `Check`'s inner loop for one rule: skip rules whose guarded
range is present in the diff; otherwise record the indices of the targets
whose key is in the targets map, and emit the rule when at least one index
was recorded. -/
def unsatIndices (targetsMap : List String) (rule : Rule) : List Nat :=
  ((rule.Targets.enum).filter
    (fun p => decide (TargetKey rule.Hunk.File p.2 ∈ targetsMap))).map Prod.fst

/-- One step of `Check`'s inner loop (the `unsatisfiedTargets` local of the
Go code is `unsatIndices`). -/
def checkRule (targetsMap : List String) (rule : Rule) : Option UnsatisfiedRule :=
  if rule.Present then none
  else if unsatIndices targetsMap rule = [] then none
  else some ⟨rule, unsatIndices targetsMap rule⟩

/-- `Check` (difflint.go): the list of unsatisfied rules for the given map
of rules.  The Go function's `error` result is always `nil`, so the
embedding returns the list directly. -/
def Check (rulesMap : List (String × List Rule)) (targetsMap : List String) :
    List UnsatisfiedRule :=
  rulesMap.flatMap (fun e => e.2.filterMap (checkRule targetsMap))

/-- A rule occurs in a rules map. -/
def RuleInMap (rule : Rule) (rulesMap : List (String × List Rule)) : Prop :=
  ∃ e ∈ rulesMap, rule ∈ e.2

/-! ## C8: range intersection -/

/-- C8: the intersection test returns true iff `a.Start ≤ b.End` and
`b.Start ≤ a.End`; it is symmetric in its arguments and inclusive on
touching boundaries: `[5,5]` intersects `[1,5]` and `[5,10]` but neither
`[1,4]` nor `[6,10]`. -/
theorem C8_intersects_inclusive (a b : Range) :
    (Intersects a b = true ↔ a.Start ≤ b.End ∧ b.Start ≤ a.End) ∧
    Intersects a b = Intersects b a ∧
    (Intersects ⟨5, 5⟩ ⟨1, 5⟩ = true ∧ Intersects ⟨5, 5⟩ ⟨5, 10⟩ = true ∧
      Intersects ⟨5, 5⟩ ⟨1, 4⟩ = false ∧ Intersects ⟨5, 5⟩ ⟨6, 10⟩ = false) := by
  refine ⟨?_, ?_, by decide⟩
  · simp [Intersects]
  · simp only [Intersects, Bool.and_comm]

/-! ## C7: target keys -/

/-- C7: a target with no file and no identifier keys to the cleaned
referencing path; a `./`/`../` file is resolved against the referencing
file's directory and cleaned; any other file is used as-is and cleaned; an
identifier is appended as a `:<identifier>` suffix (before the final
clean). -/
theorem C7_target_key (p f i : String) :
    (TargetKey p ⟨none, none⟩ = goClean p) ∧
    (f ≠ "" → isRelativeToCurrentDirectory f = true →
      TargetKey p ⟨some f, none⟩ = goClean (goJoin (goDir p) f)) ∧
    (f ≠ "" → isRelativeToCurrentDirectory f = false →
      TargetKey p ⟨some f, none⟩ = goClean f) ∧
    (∀ fo : Option String, TargetKey p ⟨fo, some i⟩ =
      goClean (targetKeyBase p ⟨fo, none⟩ ++ ":" ++ i)) := by
  refine ⟨?_, fun hf hrel => ?_, fun hf hrel => ?_, fun fo => ?_⟩
  · simp [TargetKey, targetKeyBase]
  · simp [TargetKey, targetKeyBase, hf, hrel]
  · simp [TargetKey, targetKeyBase, hf, hrel]
  · cases fo <;> simp [TargetKey, targetKeyBase, String.append_assoc]

/-- Witness for C7 at concrete inputs, discharging its hypotheses. -/
theorem C7_target_key_witness :
    TargetKey "a/main.py" ⟨some "./foo.py", none⟩ =
      goClean (goJoin (goDir "a/main.py") "./foo.py") ∧
    TargetKey "a/main.py" ⟨some "lib/x.py", none⟩ = goClean "lib/x.py" :=
  ⟨(C7_target_key "a/main.py" "./foo.py" "").2.1 (by decide) (by decide),
   (C7_target_key "a/main.py" "lib/x.py" "").2.2.1 (by decide) (by decide)⟩

/-! ## C1: what the check reports -/

/-- C1 as the spec states it: `Check` reports exactly those rules with a
non-empty target list and `Present = true` having at least one target whose
key is not in the present-targets map. -/
def C1SpecCheckClaim (rulesMap : List (String × List Rule))
    (targetsMap : List String) : Prop :=
  ∀ rule, RuleInMap rule rulesMap →
    ((∃ u ∈ Check rulesMap targetsMap, u.rule = rule) ↔
      (rule.Targets ≠ [] ∧ rule.Present = true ∧
        ∃ t ∈ rule.Targets, TargetKey rule.Hunk.File t ∉ targetsMap))

/-- A present rule with one target whose key is in no map entry: the claim
says `Check` must report it. -/
def c1Rule : Rule := ⟨⟨"a.py", ⟨1, 2⟩⟩, [⟨none, none⟩], true, none⟩

/-- C1 counterexample: on the map holding only `c1Rule` (present, one
unmatched target) and an empty targets map, `Check` reports nothing —
the code skips every rule with `Present = true`, the opposite of the
claim. -/
theorem C1_counterexample : ¬ C1SpecCheckClaim [("a.py", [c1Rule])] [] := by
  intro h
  have h2 := (h c1Rule ⟨("a.py", [c1Rule]), by simp, by simp⟩).mpr
    ⟨by simp [c1Rule], rfl, ⟨⟨none, none⟩, by simp [c1Rule], by simp⟩⟩
  obtain ⟨u, hu, -⟩ := h2
  simp [Check, checkRule, c1Rule] at hu

/-- C1 as amended: `Check` reports exactly those rules with
`Present = false` and at least one target whose key IS in the targets map;
the recorded indices are exactly the indices of the targets whose key is in
the map, and rules that are present, or have no targets, never appear. -/
theorem C1_check_characterization (rulesMap : List (String × List Rule))
    (targetsMap : List String) :
    (∀ u ∈ Check rulesMap targetsMap,
      RuleInMap u.rule rulesMap ∧ u.rule.Present = false ∧
      u.rule.Targets ≠ [] ∧ u.UnsatisfiedTargets ≠ [] ∧
      (∀ idx : Nat, idx ∈ u.UnsatisfiedTargets ↔
        ∃ t, u.rule.Targets[idx]? = some t ∧
          TargetKey u.rule.Hunk.File t ∈ targetsMap)) ∧
    (∀ rule, RuleInMap rule rulesMap → rule.Present = false →
      (∃ t ∈ rule.Targets, TargetKey rule.Hunk.File t ∈ targetsMap) →
      ∃ u ∈ Check rulesMap targetsMap, u.rule = rule) := by
  constructor
  · intro u hu
    rw [Check, List.mem_flatMap] at hu
    obtain ⟨e, he, hu⟩ := hu
    rw [List.mem_filterMap] at hu
    obtain ⟨rule, hrule, hcr⟩ := hu
    rw [checkRule] at hcr
    by_cases hp : rule.Present
    · simp [hp] at hcr
    · rw [if_neg (by simp [hp])] at hcr
      split at hcr
      · exact absurd hcr (by simp)
      · rename_i hne
        injection hcr with hcr
        subst hcr
        refine ⟨⟨e, he, hrule⟩, by simpa using hp, ?_, hne, ?_⟩
        · intro h0
          dsimp only at h0
          exact hne (by simp [unsatIndices, h0])
        · intro idx
          simp only [unsatIndices, List.mem_map, List.mem_filter, Prod.exists]
          constructor
          · rintro ⟨j, t, ⟨hmem, hkey⟩, rfl⟩
            exact ⟨t, List.mk_mem_enum_iff_getElem?.mp hmem,
              of_decide_eq_true hkey⟩
          · rintro ⟨t, hget, hkey⟩
            exact ⟨idx, t, ⟨List.mk_mem_enum_iff_getElem?.mpr hget,
              decide_eq_true hkey⟩, rfl⟩
  · intro rule ⟨e, he, hrule⟩ hp ⟨t, ht, hkey⟩
    rw [Check]
    obtain ⟨idx, hidx⟩ := List.mem_iff_getElem?.mp ht
    have hne : unsatIndices targetsMap rule ≠ [] := by
      have : (idx, t) ∈ (rule.Targets.enum).filter
          (fun p => decide (TargetKey rule.Hunk.File p.2 ∈ targetsMap)) :=
        List.mem_filter.mpr ⟨List.mk_mem_enum_iff_getElem?.mpr hidx,
          decide_eq_true hkey⟩
      intro hnil
      rw [unsatIndices, List.map_eq_nil_iff] at hnil
      simp [hnil] at this
    refine ⟨⟨rule, unsatIndices targetsMap rule⟩, ?_, rfl⟩
    rw [List.mem_flatMap]
    refine ⟨e, he, List.mem_filterMap.mpr ⟨rule, hrule, ?_⟩⟩
    rw [checkRule]
    simp only [hp, if_false, Bool.false_eq_true]
    rw [if_neg hne]

/-- Witness for C1's amended theorem: a concrete non-present rule whose
single target key is in the targets map is reported. -/
def c1wRule : Rule := ⟨⟨"a.py", ⟨1, 2⟩⟩, [⟨none, none⟩], false, none⟩

/-- Witness applying `C1_check_characterization` at a concrete input. -/
theorem C1_check_characterization_witness :
    ∃ u ∈ Check [("a.py", [c1wRule])] ["a.py"], u.rule = c1wRule :=
  (C1_check_characterization [("a.py", [c1wRule])] ["a.py"]).2 c1wRule
    ⟨("a.py", [c1wRule]), by simp, by simp⟩ rfl
    ⟨⟨none, none⟩, by simp [c1wRule], by decide⟩

/-! ## Directive lexer and rule parser (lex.go, first revision: the one
whose `parseRules` takes the file's diff ranges) -/

/-- Directive kinds (lex.go). -/
inductive directive where
  | IF
  | END
deriving DecidableEq, Repr, Inhabited

/-- A directive token (lex.go): kind, argument list, 1-based line number. -/
structure token where
  directive : directive
  args : List String
  line : Int
deriving DecidableEq, Repr, Inhabited

/-- `parseDirective` (lex.go). -/
def parseDirective (s : String) : Except String directive :=
  if s = "IF" then .ok .IF
  else if s = "END" then .ok .END
  else .error ("unknown directive " ++ s)

/-- `parseToken` (lex.go): match a line against the templates in declared
order; on the first match, strip the template's prefix and suffix, split
the remainder on spaces, and parse the leading word as the directive kind.
Returns `none` when no template matches the line. -/
def parseToken (line : String) (lineNumber : Int) :
    List String → Except String (Option token)
  | [] => .ok none
  | template :: rest =>
    match goCutChar template '?' with
    | none => .error "template is missing ?"
    | some (pfx, sfx) =>
      if goStartsWith line pfx && goEndsWith line sfx then
        let s := goTrimEnd (goTrimStart line pfx) sfx
        let args := goSplitChar s ' '
        match parseDirective (args.headD "") with
        | .error e => .error e
        | .ok d => .ok (some ⟨d, args.drop 1, lineNumber⟩)
      else parseToken line lineNumber rest

/-- The scanner loop of `lex` (lex.go): walk the lines with a running
1-based line counter, collecting the directive tokens. -/
def lexLoop (templates : List String) :
    List String → Int → List token → Except String (List token)
  | [], _, acc => .ok acc
  | line :: restLines, lineCount, acc =>
    match parseToken line (lineCount + 1) templates with
    | .error e => .error e
    | .ok none => lexLoop templates restLines (lineCount + 1) acc
    | .ok (some t) => lexLoop templates restLines (lineCount + 1) (acc ++ [t])

/-- `lex` (lex.go) over a file given as its list of lines. -/
def lex (lines : List String) (templates : List String) :
    Except String (List token) :=
  lexLoop templates lines 0 []

/-- `parseTargetsOptions` (lex.go). -/
structure parseTargetsOptions where
  args : List String
  allowEmptyArgs : Bool

/-- `parseTargets` (lex.go): each argument is cut at the first `:`; a
non-empty part before the colon becomes the target's file, and the part
after it (when a colon is present) becomes the identifier. -/
def parseTargets (o : parseTargetsOptions) : Except String (List Target) :=
  if !o.allowEmptyArgs && o.args = [] then .error "missing target"
  else .ok (o.args.map (fun arg =>
    match goCutChar arg ':' with
    | some (file, id) => ⟨if file ≠ "" then some file else none, some id⟩
    | none => ⟨if arg ≠ "" then some arg else none, none⟩))

/-- Go's zero value `Rule{}`. -/
def emptyRule : Rule := ⟨⟨"", ⟨0, 0⟩⟩, [], false, none⟩

/-- The `END` step of `parseRules` (lex.go): record the token's single
argument (if any) as the rule's identifier, close the range at the token's
line, and set `Present` when the closed range intersects one of the file's
diff ranges. -/
def closeRule (ranges : List Range) (r : Rule) (t : token) : Rule :=
  { Hunk := { File := r.Hunk.File,
              Range := { Start := r.Hunk.Range.Start, End := t.line } },
    Targets := r.Targets,
    Present :=
      if ranges.any (fun rng => Intersects ⟨r.Hunk.Range.Start, t.line⟩ rng) then
        true
      else r.Present,
    ID := if t.args.length = 1 then some (t.args.headD "") else r.ID }

/-- Closing a rule keeps its file. -/
theorem closeRule_file (ranges : List Range) (r : Rule) (t : token) :
    (closeRule ranges r t).Hunk.File = r.Hunk.File := rfl

/-- Closing a rule keeps its range start. -/
theorem closeRule_start (ranges : List Range) (r : Rule) (t : token) :
    (closeRule ranges r t).Hunk.Range.Start = r.Hunk.Range.Start := rfl

/-- Closing a rule sets its range end to the token's line. -/
theorem closeRule_stop (ranges : List Range) (r : Rule) (t : token) :
    (closeRule ranges r t).Hunk.Range.End = t.line := rfl

/-- The loop body of `parseRules` (lex.go): a two-state machine over the
token stream, where `r` is the rule under construction (`Rule{}` when no
rule is open, recognizable by its empty `Hunk.File`) and `rules` the
completed rules.  `END` closes the range at the token's line and computes
`Present` by intersecting with the file's diff ranges.  The loop returns
the final in-progress rule together with the completed list. -/
def parseRulesLoop (file : String) (ranges : List Range) :
    List token → Rule → List Rule → Except String (Rule × List Rule)
  | [], r, rules => .ok (r, rules)
  | t :: ts, r, rules =>
    match t.directive with
    | .IF =>
      if r.Hunk.File ≠ "" then
        .error ("unexpected IF directive at " ++ file)
      else
        match parseTargets ⟨t.args, true⟩ with
        | .error e => .error e
        | .ok targets =>
          parseRulesLoop file ranges ts
            { r with Targets := targets,
                     Hunk := { File := file, Range := { Start := t.line, End := 0 } } }
            rules
    | .END =>
      if r.Hunk.File = "" then
        .error ("unexpected END directive at " ++ file)
      else if t.args.length > 1 then
        .error "unexpected arguments"
      else
        parseRulesLoop file ranges ts emptyRule (rules ++ [closeRule ranges r t])

/-- `parseRules` (lex.go): fold the token stream and return the completed
rules.  The Go loop returns `rules` when the tokens run out, discarding the
rule still under construction, so the embedding drops the first component. -/
def parseRules (file : String) (tokens : List token) (ranges : List Range) :
    Except String (List Rule) :=
  (parseRulesLoop file ranges tokens emptyRule []).map Prod.snd

/-! ## C4: end of input while a rule is open -/

/-- C4 as stated: whenever the token stream runs out while a rule is still
open (the parse loop's final state carries a rule with a non-empty file,
i.e. an `IF` with no matching `END`), `parseRules` must fail with an
unterminated-rule error. -/
def C4UnterminatedClaim : Prop :=
  ∀ (file : String) (tokens : List token) (ranges : List Range) (r : Rule)
    (rules : List Rule),
    parseRulesLoop file ranges tokens emptyRule [] = .ok (r, rules) →
    r.Hunk.File ≠ "" →
    ∃ e, parseRules file tokens ranges = .error e

/-- C4 counterexample: a lone `IF` token ends the stream with an open rule,
yet `parseRules` returns successfully with the open rule silently dropped
instead of failing. -/
theorem C4_counterexample : ¬ C4UnterminatedClaim := by
  intro h
  obtain ⟨e, he⟩ := h "a" [⟨.IF, [], 1⟩] []
    ⟨⟨"a", ⟨1, 0⟩⟩, [], false, none⟩ [] (by decide) (by decide)
  rw [show parseRules "a" [⟨.IF, [], 1⟩] [] = .ok [] from by decide] at he
  exact Except.noConfusion he

/-- The parse loop splits over appending of token streams. -/
theorem parseRulesLoop_append (file : String) (ranges : List Range)
    (ts us : List token) (r : Rule) (rules : List Rule) :
    parseRulesLoop file ranges (ts ++ us) r rules =
      match parseRulesLoop file ranges ts r rules with
      | .error e => .error e
      | .ok (r1, rules1) => parseRulesLoop file ranges us r1 rules1 := by
  induction ts generalizing r rules with
  | nil => rfl
  | cons t ts ih =>
    simp only [List.cons_append, parseRulesLoop]
    split
    · split
      · rfl
      · split
        · rfl
        · exact ih _ _
    · split
      · rfl
      · split
        · rfl
        · exact ih _ _

/-- C4 amended: a token stream that ends while a rule is open parses
successfully and silently drops the open rule — appending a trailing
(unterminated) `IF` to any successfully parsed stream leaves the parsed
rule list unchanged. -/
theorem C4_trailing_if_dropped (file : String) (tokens : List token)
    (ranges : List Range) (r : Rule) (rules : List Rule) (l : Int)
    (hrun : parseRulesLoop file ranges tokens emptyRule [] = .ok (r, rules))
    (hclosed : r.Hunk.File = "") :
    parseRules file (tokens ++ [⟨.IF, [], l⟩]) ranges = .ok rules ∧
    parseRules file tokens ranges = .ok rules := by
  refine ⟨?_, by rw [parseRules, hrun]; rfl⟩
  rw [parseRules, parseRulesLoop_append, hrun]
  simp [parseRulesLoop, hclosed, parseTargets, Except.map]

/-- Witness applying `C4_trailing_if_dropped` at a concrete closed stream
followed by a dangling `IF`. -/
theorem C4_trailing_if_dropped_witness :
    parseRules "a" [⟨.IF, [], 1⟩, ⟨.END, [], 2⟩, ⟨.IF, [], 3⟩] [] =
      .ok [⟨⟨"a", ⟨1, 2⟩⟩, [], false, none⟩] :=
  (C4_trailing_if_dropped "a" [⟨.IF, [], 1⟩, ⟨.END, [], 2⟩] [] emptyRule
    [⟨⟨"a", ⟨1, 2⟩⟩, [], false, none⟩] 3 (by decide) (by decide)).1

/-! ## C10: shape and ordering of parsed rules -/

/-- Invariant of the parse loop: with strictly increasing token lines, the
completed rules all belong to `f` with `Start < End`, they are ordered by
strictly increasing `Start`, and the rule under construction (when open)
starts before every remaining token. -/
theorem parseRulesLoop_ordered (f : String) (ranges : List Range) :
    ∀ (ts : List token) (r : Rule) (rules out : List Rule) (rfin : Rule),
    ts.Pairwise (fun a b => a.line < b.line) →
    (∀ q ∈ rules, q.Hunk.File = f ∧ q.Hunk.Range.Start < q.Hunk.Range.End) →
    rules.Pairwise (fun a b => a.Hunk.Range.Start < b.Hunk.Range.Start) →
    (r.Hunk.File ≠ "" → r.Hunk.File = f ∧
      (∀ t ∈ ts, r.Hunk.Range.Start < t.line) ∧
      (∀ q ∈ rules, q.Hunk.Range.Start < r.Hunk.Range.Start)) →
    (∀ q ∈ rules, ∀ t ∈ ts, q.Hunk.Range.Start < t.line) →
    parseRulesLoop f ranges ts r rules = .ok (rfin, out) →
    (∀ q ∈ out, q.Hunk.File = f ∧ q.Hunk.Range.Start < q.Hunk.Range.End) ∧
    out.Pairwise (fun a b => a.Hunk.Range.Start < b.Hunk.Range.Start) := by
  intro ts
  induction ts with
  | nil =>
    intro r rules out rfin _ h2 h3 _ _ hok
    injection hok with hok
    injection hok with _ hout
    subst hout
    exact ⟨h2, h3⟩
  | cons t ts ih =>
    intro r rules out rfin h1 h2 h3 h4 h5 hok
    rw [List.pairwise_cons] at h1
    obtain ⟨hline, h1'⟩ := h1
    cases hd : t.directive with
    | IF =>
      simp only [parseRulesLoop, hd] at hok
      split at hok
      · exact Except.noConfusion hok
      · split at hok
        · exact Except.noConfusion hok
        · refine ih _ rules out rfin h1' h2 h3
            (fun _ => ⟨rfl, fun u hu => hline u hu,
              fun q hq => h5 q hq t (by simp)⟩)
            (fun q hq u hu => h5 q hq u (by simp [hu])) hok
    | END =>
      simp only [parseRulesLoop, hd] at hok
      split at hok
      · exact Except.noConfusion hok
      · rename_i hopen
        split at hok
        · exact Except.noConfusion hok
        · obtain ⟨hrf, hstart, hbound⟩ := h4 hopen
          refine ih _ _ out rfin h1' ?_ ?_
            (fun habs => absurd rfl habs) ?_ hok
          · intro q hq
            rcases List.mem_append.mp hq with hq | hq
            · exact h2 q hq
            · rw [List.mem_singleton] at hq
              subst hq
              rw [closeRule_file, closeRule_start, closeRule_stop]
              exact ⟨hrf, hstart t (by simp)⟩
          · rw [List.pairwise_append]
            refine ⟨h3, List.pairwise_singleton _ _, fun a ha b hb => ?_⟩
            rw [List.mem_singleton] at hb
            subst hb
            rw [closeRule_start]
            exact hbound a ha
          · intro q hq u hu
            rcases List.mem_append.mp hq with hq | hq
            · exact h5 q hq u (by simp [hu])
            · rw [List.mem_singleton] at hq
              subst hq
              rw [closeRule_start]
              exact lt_trans (hstart t (by simp)) (hline u hu)

/-- C10: for strictly increasing token lines (as the lexer produces them),
every rule of a successful parse belongs to the given file with
`Start < End`, and the rules are ordered by strictly increasing range
start, matching source line order. -/
theorem C10_parse_order (f : String) (tokens : List token)
    (ranges : List Range) (rules : List Rule)
    (hinc : tokens.Pairwise (fun a b => a.line < b.line))
    (hok : parseRules f tokens ranges = .ok rules) :
    (∀ q ∈ rules, q.Hunk.File = f ∧ q.Hunk.Range.Start < q.Hunk.Range.End) ∧
    rules.Pairwise (fun a b => a.Hunk.Range.Start < b.Hunk.Range.Start) := by
  rw [parseRules] at hok
  cases hl : parseRulesLoop f ranges tokens emptyRule [] with
  | error e => rw [hl] at hok; exact Except.noConfusion hok
  | ok p =>
    rw [hl] at hok
    injection hok with hok
    refine parseRulesLoop_ordered f ranges tokens emptyRule [] rules p.1 hinc
      (by simp) (by simp) ?_ (by simp) ?_
    · intro habs
      exact absurd rfl habs
    · rw [← hok, Prod.mk.eta]
      exact hl

/-- Witness applying `C10_parse_order` at a concrete token stream. -/
theorem C10_parse_order_witness :
    (∀ q ∈ [Rule.mk ⟨"a", ⟨1, 2⟩⟩ [] false none,
            Rule.mk ⟨"a", ⟨4, 6⟩⟩ [⟨some "b", none⟩] false none],
      q.Hunk.File = "a" ∧ q.Hunk.Range.Start < q.Hunk.Range.End) ∧
    List.Pairwise (fun a b => a.Hunk.Range.Start < b.Hunk.Range.Start)
      [Rule.mk ⟨"a", ⟨1, 2⟩⟩ [] false none,
       Rule.mk ⟨"a", ⟨4, 6⟩⟩ [⟨some "b", none⟩] false none] :=
  C10_parse_order "a"
    [⟨.IF, [], 1⟩, ⟨.END, [], 2⟩, ⟨.IF, ["b"], 4⟩, ⟨.END, [], 6⟩] []
    [Rule.mk ⟨"a", ⟨1, 2⟩⟩ [] false none,
     Rule.mk ⟨"a", ⟨4, 6⟩⟩ [⟨some "b", none⟩] false none]
    (by decide) (by decide)

/-! ## Lint options and template lookup (difflint.go, ext.go) -/

/-- `DefaultTemplates` (ext.go). -/
def DefaultTemplates : List String :=
  ["#LINT.?", "//LINT.?", "/*LINT.?", "<!--LINT.?", "'LINT.?"]

/-- `DefaultFileExtMap` (ext.go), as an association list in source order. -/
def DefaultFileExtMap : List (String × List Nat) :=
  [("py", [0]), ("sh", [0]), ("go", [1]), ("js", [1, 2]), ("jsx", [1, 2]),
   ("mjs", [1, 2]), ("ts", [1, 2]), ("tsx", [1, 2]), ("jsonc", [1, 2]),
   ("c", [1, 2]), ("cc", [1, 2]), ("cpp", [1, 2]), ("h", [1, 2]),
   ("hpp", [1, 2]), ("java", [1]), ("rs", [1]), ("swift", [1]),
   ("svelte", [1, 2, 3]), ("css", [2]), ("html", [3]), ("md", [3]),
   ("markdown", [3]), ("bas", [4])]

/-- `LintOptions` (difflint.go), restricted to the fields the core logic
reads.  The diff reader and the include/exclude globs are external inputs
and are passed to the embedded `Lint` as separate parameters. -/
structure LintOptions where
  Templates : List String
  FileExtMap : List (String × List Nat)
  DefaultTemplate : Nat
deriving Repr, Inhabited

/-- `TemplatesFromFile` (difflint.go): the directive templates for a file,
chosen by the extension (with the leading dot trimmed); an unmapped
extension falls back to the index list `[DefaultTemplate]`, and an empty
filtered list falls back to the default template.  A Go index-out-of-range
panic is modeled as an error.  `getEach` is the index-by-index slice read
of the Go loop (`none` = panic). -/
def getEach (ts : List String) : List Nat → Option (List String)
  | [] => some []
  | i :: is =>
    match ts.get? i with
    | none => none
    | some t =>
      match getEach ts is with
      | none => none
      | some rest => some (t :: rest)

/-- `TemplatesFromFile` continued: see the doc comment above `getEach`. -/
def TemplatesFromFile (o : LintOptions) (file : String) :
    Except String (List String) :=
  match getEach o.Templates
      (match o.FileExtMap.lookup (goTrimStart (goExt file) ".") with
       | some is => is
       | none => [o.DefaultTemplate]) with
  | none => .error "index out of range"
  | some filteredTemplates =>
    if filteredTemplates = [] then
      match o.Templates.get? o.DefaultTemplate with
      | none => .error "index out of range"
      | some t => .ok [t]
    else .ok filteredTemplates

/-! ## C3: missing templates -/

/-- C3 as stated, in the part the type system can express: template lookup
must fail for every file with no extension at all.  (The claim's other
hypothesis, "no default template is configured", has no counterpart in the
code: `DefaultTemplate` is an always-present integer index.) -/
def C3NoTemplateClaim : Prop :=
  ∀ (o : LintOptions) (file : String), goExt file = "" →
    ∃ e, TemplatesFromFile o file = .error e

/-- C3 counterexample: with the default configuration, a file with no
extension succeeds with the default template instead of failing. -/
theorem C3_counterexample : ¬ C3NoTemplateClaim := by
  intro h
  obtain ⟨e, he⟩ := h ⟨DefaultTemplates, DefaultFileExtMap, 0⟩ "Makefile"
    (by decide)
  rw [show TemplatesFromFile ⟨DefaultTemplates, DefaultFileExtMap, 0⟩
    "Makefile" = .ok ["#LINT.?"] from by decide] at he
  exact Except.noConfusion he

/-- C3 amended: template lookup never fails for want of a template — a file
whose (possibly empty) extension is unmapped falls back to the single
default template `Templates[DefaultTemplate]`. -/
theorem C3_template_fallback (o : LintOptions) (file : String)
    (hmap : o.FileExtMap.lookup (goTrimStart (goExt file) ".") = none)
    (hd : o.DefaultTemplate < o.Templates.length) :
    TemplatesFromFile o file = .ok [o.Templates.get ⟨o.DefaultTemplate, hd⟩] := by
  rw [TemplatesFromFile, hmap]
  simp [getEach, List.getElem?_eq_getElem hd]

/-- Witness applying `C3_template_fallback` to an extensionless file under
the default configuration. -/
theorem C3_template_fallback_witness :
    TemplatesFromFile ⟨DefaultTemplates, DefaultFileExtMap, 0⟩ "Makefile" =
      .ok ["#LINT.?"] :=
  (C3_template_fallback ⟨DefaultTemplates, DefaultFileExtMap, 0⟩ "Makefile"
    (by decide) (by decide)).trans (by decide)

/-! ## C5: registering custom templates (ext.go, `With`) -/

/-- `ExtMap` (ext.go). -/
structure ExtMap where
  Templates : List String
  FileExtMap : List (String × List Nat)
deriving Repr, Inhabited

/-- The index-search loop of `With` (ext.go): the index of the first
template equal to `tpl`, if any. -/
def findTplIdx (tpl : String) : List String → Option Nat
  | [] => none
  | x :: xs => if x = tpl then some 0 else (findTplIdx tpl xs).map (· + 1)

/-- A Go `m[ext] = append(m[ext], i)` on the association-list model: an
absent key reads as the empty slice, and the entry is created at the end of
the list when missing. -/
def extMapAppend (m : List (String × List Nat)) (ext : String) (i : Nat) :
    List (String × List Nat) :=
  match m with
  | [] => [(ext, [i])]
  | (k, v) :: rest =>
    if k = ext then (k, v ++ [i]) :: rest else (k, v) :: extMapAppend rest ext i

/-- `With` (ext.go): register a directive template for a file extension:
reuse the index of an identical template string when one exists, otherwise
append the template to the global list; then append the chosen index to the
extension's entry of the map. -/
def ExtMap.With (o : ExtMap) (ext tpl : String) : ExtMap :=
  match findTplIdx tpl o.Templates with
  | some i => ⟨o.Templates, extMapAppend o.FileExtMap ext i⟩
  | none => ⟨o.Templates ++ [tpl], extMapAppend o.FileExtMap ext o.Templates.length⟩

/-- `findTplIdx` succeeds exactly on present templates. -/
theorem findTplIdx_eq_none_iff (tpl : String) (ts : List String) :
    findTplIdx tpl ts = none ↔ tpl ∉ ts := by
  induction ts with
  | nil => simp [findTplIdx]
  | cons x xs ih =>
    rw [findTplIdx]
    by_cases hx : x = tpl
    · simp [hx]
    · simp only [hx, if_false, List.mem_cons, Option.map_eq_none', ih]
      constructor
      · rintro hn (rfl | hm)
        · exact hx rfl
        · exact hn hm
      · intro hn
        exact fun hm => hn (Or.inr hm)

/-- Looking up the appended extension returns the old entry (empty when
absent) extended by the new index. -/
theorem extMapAppend_lookup_self (m : List (String × List Nat)) (ext : String)
    (i : Nat) :
    (extMapAppend m ext i).lookup ext = some ((m.lookup ext).getD [] ++ [i]) := by
  induction m with
  | nil => simp [extMapAppend, List.lookup]
  | cons e rest ih =>
    obtain ⟨k, v⟩ := e
    rw [extMapAppend]
    by_cases hk : k = ext
    · subst hk
      simp [List.lookup]
    · rw [if_neg hk]
      have hne : (ext == k) = false := by
        simp [Ne.symm hk]
      simp [List.lookup, hne, ih]

/-- Looking up any other extension is unchanged by the append. -/
theorem extMapAppend_lookup_other (m : List (String × List Nat))
    (ext e : String) (i : Nat) (hne : e ≠ ext) :
    (extMapAppend m ext i).lookup e = m.lookup e := by
  induction m with
  | nil =>
    have h1 : (e == ext) = false := beq_eq_false_iff_ne.mpr hne
    simp [extMapAppend, List.lookup, h1]
  | cons kv rest ih =>
    obtain ⟨k, v⟩ := kv
    rw [extMapAppend]
    by_cases hk : k = ext
    · subst hk
      have h1 : (e == k) = false := beq_eq_false_iff_ne.mpr hne
      simp [List.lookup, h1, ih]
    · rw [if_neg hk]
      by_cases hek : e = k
      · subst hek
        simp [List.lookup]
      · have h1 : (e == k) = false := by simp [hek]
        simp [List.lookup, h1, ih]

/-- C5 as stated: `With` appends a new template string only when absent,
and touches the extension map only for extensions not covered by the
default map. -/
def C5WithClaim : Prop :=
  ∀ (o : ExtMap) (ext tpl : String),
    (tpl ∈ o.Templates → (o.With ext tpl).Templates = o.Templates) ∧
    (tpl ∉ o.Templates → (o.With ext tpl).Templates = o.Templates ++ [tpl]) ∧
    ((DefaultFileExtMap.lookup ext).isSome →
      (o.With ext tpl).FileExtMap.lookup ext = o.FileExtMap.lookup ext)

/-- C5 counterexample: registering a fresh template for `go` — an extension
covered by the defaults — extends the `go` entry of the map ( `[1]` becomes
`[1, 5]` ), while the claim demands the map stay unchanged for
default-covered extensions. -/
theorem C5_counterexample : ¬ C5WithClaim := by
  intro h
  have h3 := (h ⟨DefaultTemplates, DefaultFileExtMap⟩ "go" "XX").2.2 (by decide)
  rw [show (ExtMap.With ⟨DefaultTemplates, DefaultFileExtMap⟩ "go"
    "XX").FileExtMap.lookup "go" = some [1, 5] from by decide] at h3
  exact absurd h3 (by decide)

/-- C5 amended: `With` appends the template string to the global list only
when an identical one is absent; it appends the chosen index to the given
extension's map entry unconditionally — also for extensions covered by the
defaults — and never discards anything: existing template indices of the
extension are kept, every other extension's entry is untouched, and the
template list only grows. -/
theorem C5_with_characterization (o : ExtMap) (ext tpl : String) :
    (tpl ∈ o.Templates → (o.With ext tpl).Templates = o.Templates) ∧
    (tpl ∉ o.Templates → (o.With ext tpl).Templates = o.Templates ++ [tpl]) ∧
    (∃ i : Nat, (o.With ext tpl).FileExtMap.lookup ext =
      some ((o.FileExtMap.lookup ext).getD [] ++ [i])) ∧
    (∀ e, e ≠ ext →
      (o.With ext tpl).FileExtMap.lookup e = o.FileExtMap.lookup e) ∧
    (∃ l, (o.With ext tpl).Templates = o.Templates ++ l) := by
  refine ⟨fun hmem => ?_, fun hmem => ?_, ?_, fun e he => ?_, ?_⟩
  · rw [ExtMap.With]
    cases hf : findTplIdx tpl o.Templates with
    | some i => rfl
    | none => exact absurd hmem ((findTplIdx_eq_none_iff tpl o.Templates).mp hf)
  · rw [ExtMap.With, (findTplIdx_eq_none_iff tpl o.Templates).mpr hmem]
  · rw [ExtMap.With]
    cases hf : findTplIdx tpl o.Templates with
    | some i => exact ⟨i, extMapAppend_lookup_self _ _ _⟩
    | none => exact ⟨o.Templates.length, extMapAppend_lookup_self _ _ _⟩
  · rw [ExtMap.With]
    cases hf : findTplIdx tpl o.Templates with
    | some i => exact extMapAppend_lookup_other _ _ _ _ he
    | none => exact extMapAppend_lookup_other _ _ _ _ he
  · rw [ExtMap.With]
    cases hf : findTplIdx tpl o.Templates with
    | some i => exact ⟨[], by simp⟩
    | none => exact ⟨[tpl], rfl⟩

/-- Witness applying `C5_with_characterization` at a concrete registration
of an already-present template string. -/
theorem C5_with_characterization_witness :
    (ExtMap.With ⟨DefaultTemplates, DefaultFileExtMap⟩ "yaml"
      "#LINT.?").Templates = DefaultTemplates ∧
    (ExtMap.With ⟨DefaultTemplates, DefaultFileExtMap⟩ "yaml"
      "#LINT.?").FileExtMap.lookup "go" = DefaultFileExtMap.lookup "go" :=
  ⟨(C5_with_characterization ⟨DefaultTemplates, DefaultFileExtMap⟩ "yaml"
      "#LINT.?").1 (by decide),
   (C5_with_characterization ⟨DefaultTemplates, DefaultFileExtMap⟩ "yaml"
      "#LINT.?").2.2.2.1 "go" (by decide)⟩

/-! ## C6: hunk extraction (difflint.go, `ParseHunks`) -/

/-- One hunk of the external go-diff parser's output, restricted to the
fields difflint reads (`NewStartLine`, `NewLines`). -/
structure DiffHunk where
  NewStartLine : Int
  NewLines : Int
deriving DecidableEq, Repr, Inhabited

/-- One file's diff as produced by the external go-diff parser
(`diff.FileDiff` restricted to the fields difflint reads). -/
structure FileDiff where
  NewName : String
  Hunks : List DiffHunk
deriving DecidableEq, Repr, Inhabited

/-- `ParseHunks` (difflint.go): the go-diff multi-file reader is an
external library, so its outcome — a parse error or the list of file
diffs — is the embedding's input.  difflint's own contribution maps every
hunk of every file diff to a `Hunk` whose file is the new-side name with a
`b/` prefix stripped and whose inclusive range is
`[NewStartLine, NewStartLine + NewLines - 1]`, wrapping a parser failure
into an error. -/
def ParseHunks (parsed : Except String (List FileDiff)) :
    Except String (List Hunk) :=
  match parsed with
  | .error e => .error ("failed to read files: " ++ e)
  | .ok diffs => .ok (diffs.flatMap (fun d => d.Hunks.map (fun h =>
      ⟨goTrimStart d.NewName "b/",
       ⟨h.NewStartLine, h.NewStartLine + h.NewLines - 1⟩⟩)))

/-- C6: hunk extraction yields one record per diff hunk with the `b/`
prefix stripped from the new-side path and the inclusive range
`[newStartLine, newStartLine + newLineCount - 1]`; a structural parse
failure propagates as an error; an empty diff yields zero hunks. -/
theorem C6_parse_hunks (diffs : List FileDiff) (e : String) :
    (∃ e2, ParseHunks (.error e) = .error e2) ∧
    ParseHunks (.ok []) = .ok [] ∧
    (∀ l, ParseHunks (.ok diffs) = .ok l →
      l.length = (diffs.map (fun d => d.Hunks.length)).sum ∧
      ∀ hk ∈ l, ∃ d ∈ diffs, ∃ h ∈ d.Hunks,
        hk.File = goTrimStart d.NewName "b/" ∧
        hk.Range = ⟨h.NewStartLine, h.NewStartLine + h.NewLines - 1⟩) := by
  refine ⟨⟨_, rfl⟩, rfl, fun l hl => ?_⟩
  injection hl with hl
  subst hl
  constructor
  · rw [List.length_flatMap]
    induction diffs with
    | nil => rfl
    | cons d ds ih =>
      simp only [List.map_cons, List.sum_cons, Function.comp_apply,
        List.length_map, ih]
  · intro hk hmem
    rw [List.mem_flatMap] at hmem
    obtain ⟨d, hd, hmem⟩ := hmem
    rw [List.mem_map] at hmem
    obtain ⟨h, hh, hEq⟩ := hmem
    exact ⟨d, hd, h, hh, by rw [← hEq], by rw [← hEq]⟩

/-- Witness applying `C6_parse_hunks` to a one-file, one-hunk diff. -/
theorem C6_parse_hunks_witness :
    [Hunk.mk "foo.py" ⟨3, 6⟩].length =
      ([FileDiff.mk "b/foo.py" [DiffHunk.mk 3 4]].map
        (fun d => d.Hunks.length)).sum ∧
    ∀ hk ∈ [Hunk.mk "foo.py" ⟨3, 6⟩],
      ∃ d ∈ [FileDiff.mk "b/foo.py" [DiffHunk.mk 3 4]], ∃ h ∈ d.Hunks,
        hk.File = goTrimStart d.NewName "b/" ∧
        hk.Range = ⟨h.NewStartLine, h.NewStartLine + h.NewLines - 1⟩ :=
  (C6_parse_hunks [FileDiff.mk "b/foo.py" [DiffHunk.mk 3 4]] "x").2.2
    [Hunk.mk "foo.py" ⟨3, 6⟩] (by decide)

/-! ## Rule-map resolution (rules.go) and linting (difflint.go) -/

/-- A file system: path ↦ the file's lines. -/
abbrev FileSys := List (String × List String)

/-- Open + lex + parse one file (the per-file body of `RulesMapFromHunks`
in rules.go, and of `RulesFromFile` in the concurrent revision): open the
file (an absent path is an open error), look up its templates, lex it, and
parse its rules against the file's diff ranges. -/
def parsePipeline (fs : FileSys) (options : LintOptions) (pathname : String)
    (ranges : List Range) : Except String (List Rule) :=
  match fs.lookup pathname with
  | none => .error ("failed to open file " ++ pathname)
  | some lines =>
    match TemplatesFromFile options pathname with
    | .error e => .error e
    | .ok templates =>
      match lex lines templates with
      | .error e => .error e
      | .ok tokens => parseRules pathname tokens ranges

/-- Append a range to a file's entry, creating the entry at the end when
absent (the `rangesMap` update of `RulesMapFromHunks`). -/
def rangesInsert (m : List (String × List Range)) (f : String) (r : Range) :
    List (String × List Range) :=
  match m with
  | [] => [(f, [r])]
  | (k, v) :: rest =>
    if k = f then (k, v ++ [r]) :: rest else (k, v) :: rangesInsert rest f r

/-- Group the hunks' ranges by file, in first-occurrence order. -/
def rangesMapOf (hunks : List Hunk) : List (String × List Range) :=
  hunks.foldl (fun m h => rangesInsert m h.File h.Range) []

/-- Insert a key into a modeled Go set (`map[string]struct{}`). -/
def setInsert (s : List String) (k : String) : List String :=
  if k ∈ s then s else s ++ [k]

/-- The per-file loop of `RulesMapFromHunks` (rules.go): parse each hunk
file, record `TargetKey(pathname, Target{ID: rule.ID})` for every parsed
rule, and collect the rules map. -/
def rulesMapLoop (fs : FileSys) (options : LintOptions) :
    List (String × List Range) → List String → List (String × List Rule) →
    Except String (List (String × List Rule) × List String)
  | [], targetsMap, rulesMap => .ok (rulesMap, targetsMap)
  | (pathname, ranges) :: rest, targetsMap, rulesMap =>
    match parsePipeline fs options pathname ranges with
    | .error e => .error e
    | .ok rules =>
      rulesMapLoop fs options rest
        (rules.foldl
          (fun tm rule => setInsert tm (TargetKey pathname ⟨none, rule.ID⟩))
          targetsMap)
        (rulesMap ++ [(pathname, rules)])

/-- `RulesMapFromHunks` (rules.go): seed the targets map with the key of
every hunk's file, group the hunks by file, then parse each hunk file. -/
def RulesMapFromHunks (fs : FileSys) (hunks : List Hunk)
    (options : LintOptions) :
    Except String (List (String × List Rule) × List String) :=
  rulesMapLoop fs options (rangesMapOf hunks)
    (hunks.foldl (fun s h => setInsert s (TargetKey h.File ⟨none, none⟩)) []) []

/-- `LintResult` (difflint.go). -/
structure LintResult where
  UnsatisfiedRules : List UnsatisfiedRule
deriving DecidableEq, Repr

/-- The output filter loop of `Lint` (difflint.go): keep the unsatisfied
rules whose file the include/exclude judgment accepts.  Glob matching
(`Include`) is outside the core, so the judgment is a parameter; like
`filepath.Match` it may fail. -/
def filterIncluded (includeFn : String → Except String Bool) :
    List UnsatisfiedRule → Except String (List UnsatisfiedRule)
  | [] => .ok []
  | u :: us =>
    match includeFn u.rule.Hunk.File with
    | .error e => .error e
    | .ok b =>
      match filterIncluded includeFn us with
      | .error e => .error e
      | .ok rest => .ok (if b then u :: rest else rest)

/-- `Lint` (difflint.go): parse the diff into hunks, resolve the rules map
and the present-targets map, run the check, and filter the result. -/
def Lint (fs : FileSys) (includeFn : String → Except String Bool)
    (o : LintOptions) (parsed : Except String (List FileDiff)) :
    Except String LintResult :=
  match ParseHunks parsed with
  | .error e => .error e
  | .ok hunks =>
    match RulesMapFromHunks fs hunks o with
    | .error e => .error e
    | .ok (rulesMap, presentTargetsMap) =>
      match filterIncluded includeFn (Check rulesMap presentTargetsMap) with
      | .error e => .error e
      | .ok filtered => .ok ⟨filtered⟩

/-! ## C9: an empty diff lints clean -/

/-- C9: a diff with zero hunks always lints successfully with zero
unsatisfied rules: no file is parsed, so no rule exists, let alone a
present one. -/
theorem C9_empty_diff (fs : FileSys) (includeFn : String → Except String Bool)
    (o : LintOptions) (diffs : List FileDiff)
    (hnil : ∀ d ∈ diffs, d.Hunks = []) :
    Lint fs includeFn o (.ok diffs) = .ok ⟨[]⟩ := by
  have h1 : ParseHunks (.ok diffs) = .ok [] := by
    rw [ParseHunks]
    congr 1
    rw [List.flatMap_eq_nil_iff]
    intro d hd
    rw [hnil d hd]
    rfl
  rw [Lint, h1]
  rfl

/-- Witness applying `C9_empty_diff` to a concrete empty diff. -/
theorem C9_empty_diff_witness :
    Lint [] (fun _ => .ok true) ⟨DefaultTemplates, DefaultFileExtMap, 0⟩
      (.ok []) = .ok ⟨[]⟩ :=
  C9_empty_diff [] (fun _ => .ok true) ⟨DefaultTemplates, DefaultFileExtMap, 0⟩
    [] (by simp)

/-! ## C2: the rule-graph resolver with cross-file discovery
(superseded concurrent revision, src/unnamed/part_000) -/

/-- Ghost-instrumented resolver state: the shared `visited` set of the Go
code, plus a log of the parse events (file, rules parsed from it) in
execution order.  The log is specification instrumentation only. -/
structure RState where
  visited : List String
  log : List (String × List Rule)
deriving DecidableEq, Repr

/-- The file names mentioned by the rules' targets, in iteration order (the
discovery loop of `RulesFromFile` spawns one task per target that carries a
file). -/
def targetFiles (rules : List Rule) : List String :=
  rules.flatMap (fun r => r.Targets.filterMap (fun t => t.File))

/-- The discovery loop of `RulesFromFile`, abstracted over the recursive
call `step` (the parse of one discovered file): skip a target file that is
already visited (the goroutine's check), otherwise parse it with no diff
ranges; an error inside a discovery task is swallowed (the goroutine
discards `err`), and discovered rules are appended to the caller's rule
list (`rules = append(rules, moreRules...)`). -/
def discoverLoop
    (step : String → List Range → RState → Except String (List Rule) × RState) :
    List String → List Rule → RState → Except String (List Rule) × RState
  | [], acc, s => (.ok acc, s)
  | g :: gs, acc, s =>
    if g ∈ s.visited then discoverLoop step gs acc s
    else
      match step g [] s with
      | (.error _, s2) => discoverLoop step gs acc s2
      | (.ok more, s2) => discoverLoop step gs (acc ++ more) s2

/-- `RulesFromFile` (concurrent revision), sequentialized: each goroutine
spawn (`go func(pathname)`) is modeled as an immediate synchronous call —
one legal scheduling of the unsynchronized Go original.  The call marks its
file visited, parses it (recording the parse in the ghost log), then walks
the parsed rules' target files; `fuel` only forces termination in Lean (the
Go recursion terminates because the visited set grows). -/
def RulesFromFile (fs : FileSys) (options : LintOptions) :
    Nat → String → List Range → RState →
    Except String (List Rule) × RState
  | 0, _, _, s => (.error "recursion fuel exhausted", s)
  | Nat.succ fuel, pathname, ranges, s =>
    match parsePipeline fs options pathname ranges,
        ({ s with visited := s.visited ++ [pathname] } : RState) with
    | .error e, s1 => (.error e, s1)
    | .ok rules, s1 =>
      discoverLoop (RulesFromFile fs options fuel) (targetFiles rules) rules
        { s1 with log := s1.log ++ [(pathname, rules)] }

/-- The seed loop of the concurrent `RulesMapFromHunks` (part_000): parse
every hunk file — with no visited check — collecting the rules map and
extending the targets map with each parsed rule's key; a seed failure
aborts the whole resolution. -/
def seedLoop (fs : FileSys) (options : LintOptions) :
    List (String × List Range) → List String → List (String × List Rule) →
    RState →
    Except String (List (String × List Rule) × List String × RState)
  | [], targetsMap, rulesMap, s => .ok (rulesMap, targetsMap, s)
  | (pathname, ranges) :: rest, targetsMap, rulesMap, s =>
    match RulesFromFile fs options (fs.length + 2) pathname ranges s with
    | (.error e, _) => .error e
    | (.ok rules, s2) =>
      seedLoop fs options rest
        (rules.foldl
          (fun tm rule => setInsert tm (TargetKey pathname ⟨none, rule.ID⟩))
          targetsMap)
        (rulesMap ++ [(pathname, rules)]) s2

/-- The concurrent revision's `RulesMapFromHunks` (part_000),
sequentialized: seed the targets map with every hunk file's key, group the
hunks by file, and run the seed loop; the final ghost state is returned
alongside the two maps. -/
def RulesMapFromHunksConc (fs : FileSys) (hunks : List Hunk)
    (options : LintOptions) :
    Except String (List (String × List Rule) × List String × RState) :=
  seedLoop fs options (rangesMapOf hunks)
    (hunks.foldl (fun s h => setInsert s (TargetKey h.File ⟨none, none⟩)) [])
    [] ⟨[], []⟩

/-- A log entry's rules all have `Present = false`. -/
def entryPresentFalse (e : String × List Rule) : Prop :=
  ∀ r ∈ e.2, r.Present = false

/-- C2 as stated: for every diff and file tree, resolution parses every
file owning a diff hunk and every file transitively reachable through
target file references, with each file parsed at most once, and rules
parsed from a file with no diff hunks always have `Present = false`. -/
def C2ResolverClaim (fs : FileSys) (options : LintOptions)
    (hunks : List Hunk) : Prop :=
  ∀ rulesMap targetsMap st,
    RulesMapFromHunksConc fs hunks options = .ok (rulesMap, targetsMap, st) →
    (∀ e ∈ rangesMapOf hunks, e.1 ∈ st.log.map Prod.fst) ∧
    (∀ e ∈ st.log, ∀ g ∈ targetFiles e.2, g ∈ st.log.map Prod.fst) ∧
    (st.log.map Prod.fst).Nodup ∧
    (∀ e ∈ st.log, e.1 ∉ (rangesMapOf hunks).map Prod.fst →
      entryPresentFalse e)

/-- The two-file tree of the C2 counterexample: hunk file `a` declares a
rule targeting hunk file `b`. -/
def c2fs : FileSys :=
  [("a", ["#LINT.IF b", "#LINT.END"]), ("b", ["#LINT.IF", "#LINT.END"])]

/-- Options for the C2 counterexample: one template, empty extension map,
so every file uses the default template. -/
def c2opts : LintOptions := ⟨["#LINT.?"], [], 0⟩

/-- The C2 counterexample diff touches both files. -/
def c2hunks : List Hunk := [⟨"a", ⟨1, 2⟩⟩, ⟨"b", ⟨1, 2⟩⟩]

/-- C2 counterexample: the seed loop never consults the visited set, so
hunk file `b` — discovered and parsed while processing hunk file `a`,
whose rule targets it — is parsed a second time by its own seed turn: the
parse log reads `a, b, b`. -/
theorem C2_counterexample : ¬ C2ResolverClaim c2fs c2opts c2hunks := by
  intro h
  obtain ⟨-, -, hnodup, -⟩ :=
    h [("a", [⟨⟨"a", ⟨1, 2⟩⟩, [⟨some "b", none⟩], true, none⟩,
              ⟨⟨"b", ⟨1, 2⟩⟩, [], false, none⟩]),
       ("b", [⟨⟨"b", ⟨1, 2⟩⟩, [], true, none⟩])]
      ["a", "b"]
      ⟨["a", "b", "b"],
       [("a", [⟨⟨"a", ⟨1, 2⟩⟩, [⟨some "b", none⟩], true, none⟩]),
        ("b", [⟨⟨"b", ⟨1, 2⟩⟩, [], false, none⟩]),
        ("b", [⟨⟨"b", ⟨1, 2⟩⟩, [], true, none⟩])]⟩
      (by decide)
  exact absurd hnodup (by decide)

/-- The number of file-system paths not yet visited; the Go recursion's
termination measure, used to show the Lean fuel is never exhausted. -/
def missCount (fs : FileSys) (visited : List String) : Nat :=
  ((fs.map Prod.fst).filter (fun f => decide (f ∉ visited))).length

/-- A pointwise-weaker filter keeps fewer elements. -/
theorem filter_len_le_of_imp {α : Type} (l : List α) (p q : α → Bool)
    (h : ∀ a ∈ l, p a = true → q a = true) :
    (l.filter p).length ≤ (l.filter q).length := by
  induction l with
  | nil => simp
  | cons a l ih =>
    have ih2 := ih (fun x hx hpx => h x (List.mem_cons_of_mem a hx) hpx)
    rw [List.filter_cons, List.filter_cons]
    cases hp : p a
    · cases hq : q a
      · simpa using ih2
      · simp only [List.length_cons]
        exact Nat.le_succ_of_le ih2
    · rw [h a (List.mem_cons_self a l) hp]
      simpa using ih2

/-- A filter that flips at least one kept element to dropped, and keeps no
new element, loses at least one element. -/
theorem filter_len_flip_lt {α : Type} (l : List α) (p q : α → Bool)
    (x : α) (hx : x ∈ l) (hpq : ∀ a ∈ l, p a = true → q a = true)
    (hpx : p x = false) (hqx : q x = true) :
    (l.filter p).length + 1 ≤ (l.filter q).length := by
  induction l with
  | nil => simp at hx
  | cons a l ih =>
    have hmono : (l.filter p).length ≤ (l.filter q).length :=
      filter_len_le_of_imp l p q
        (fun y hy hpy => hpq y (List.mem_cons_of_mem a hy) hpy)
    rw [List.filter_cons, List.filter_cons]
    rcases List.mem_cons.mp hx with rfl | hx2
    · rw [hpx, hqx]
      simpa using hmono
    · have ih2 := ih hx2 (fun y hy hpy => hpq y (List.mem_cons_of_mem a hy) hpy)
      cases hp : p a
      · cases hq : q a
        · simpa using ih2
        · simp only [List.length_cons]
          exact Nat.le_succ_of_le ih2
      · rw [hpq a (List.mem_cons_self a l) hp]
        simpa using ih2

/-- Growing the visited set cannot increase the miss count. -/
theorem missCount_mono (fs : FileSys) (v v2 : List String)
    (hsub : ∀ x ∈ v, x ∈ v2) :
    missCount fs v2 ≤ missCount fs v := by
  refine filter_len_le_of_imp _ _ _ (fun a _ ha => ?_)
  have h1 : a ∉ v2 := of_decide_eq_true ha
  exact decide_eq_true (fun hav => h1 (hsub a hav))

/-- Visiting an unvisited path of the file system strictly decreases the
miss count. -/
theorem missCount_visit_lt (fs : FileSys) (v : List String) (p : String)
    (hp : p ∈ fs.map Prod.fst) (hpv : p ∉ v) :
    missCount fs (v ++ [p]) + 1 ≤ missCount fs v := by
  refine filter_len_flip_lt _ _ _ p hp (fun a _ ha => ?_) ?_ ?_
  · have h1 : a ∉ v ++ [p] := of_decide_eq_true ha
    exact decide_eq_true (fun hav => h1 (List.mem_append_left _ hav))
  · exact decide_eq_false (not_not_intro (List.mem_append_right _ (by simp)))
  · exact decide_eq_true hpv

/-- The miss count is bounded by the file system's size. -/
theorem missCount_le_length (fs : FileSys) (v : List String) :
    missCount fs v ≤ fs.length := by
  rw [missCount]
  calc ((fs.map Prod.fst).filter _).length ≤ (fs.map Prod.fst).length :=
        List.length_filter_le _ _
    _ = fs.length := List.length_map _ _

/-- A successful association-list lookup means the key occurs. -/
theorem lookup_some_mem {α : Type} (m : List (String × α)) (p : String)
    (x : α) (h : m.lookup p = some x) : p ∈ m.map Prod.fst := by
  induction m with
  | nil => simp [List.lookup] at h
  | cons e rest ih =>
    obtain ⟨k, v⟩ := e
    rw [List.lookup] at h
    by_cases hk : p = k
    · simp [hk]
    · have h1 : (p == k) = false := beq_eq_false_iff_ne.mpr hk
      rw [h1] at h
      exact List.mem_cons_of_mem _ (ih h)

/-- A successful parse pipeline implies the file exists. -/
theorem parsePipeline_ok_mem (fs : FileSys) (options : LintOptions)
    (pathname : String) (ranges : List Range) (rules : List Rule)
    (h : parsePipeline fs options pathname ranges = .ok rules) :
    pathname ∈ fs.map Prod.fst := by
  rw [parsePipeline] at h
  cases hl : fs.lookup pathname with
  | none => rw [hl] at h; exact Except.noConfusion h
  | some lines => exact lookup_some_mem fs pathname lines hl

/-- Parsing with no diff ranges closes every rule with `Present = false`. -/
theorem parseRulesLoop_nil_present (f : String) :
    ∀ (ts : List token) (r : Rule) (rules out : List Rule) (rfin : Rule),
    (∀ q ∈ rules, q.Present = false) → r.Present = false →
    parseRulesLoop f [] ts r rules = .ok (rfin, out) →
    ∀ q ∈ out, q.Present = false := by
  intro ts
  induction ts with
  | nil =>
    intro r rules out rfin h2 _ hok
    injection hok with hok
    injection hok with _ hout
    subst hout
    exact h2
  | cons t ts ih =>
    intro r rules out rfin h2 hr hok
    cases hd : t.directive with
    | IF =>
      simp only [parseRulesLoop, hd] at hok
      split at hok
      · exact Except.noConfusion hok
      · split at hok
        · exact Except.noConfusion hok
        · refine ih _ rules out rfin h2 ?_ hok
          exact hr
    | END =>
      simp only [parseRulesLoop, hd] at hok
      split at hok
      · exact Except.noConfusion hok
      · split at hok
        · exact Except.noConfusion hok
        · refine ih _ _ out rfin ?_ rfl hok
          intro q hq
          rcases List.mem_append.mp hq with hq | hq
          · exact h2 q hq
          · rw [List.mem_singleton] at hq
            subst hq
            simp [closeRule, hr]

/-- `parseRules` with no ranges yields only non-present rules. -/
theorem parseRules_nil_present (f : String) (tokens : List token)
    (rules : List Rule) (hok : parseRules f tokens [] = .ok rules) :
    ∀ q ∈ rules, q.Present = false := by
  rw [parseRules] at hok
  cases hl : parseRulesLoop f [] tokens emptyRule [] with
  | error e => rw [hl] at hok; exact Except.noConfusion hok
  | ok p =>
    rw [hl] at hok
    injection hok with hok
    subst hok
    exact parseRulesLoop_nil_present f tokens emptyRule [] p.2 p.1
      (by simp) rfl (by rw [hl])

/-- The parse pipeline with no ranges yields only non-present rules. -/
theorem parsePipeline_nil_present (fs : FileSys) (options : LintOptions)
    (pathname : String) (rules : List Rule)
    (h : parsePipeline fs options pathname [] = .ok rules) :
    ∀ q ∈ rules, q.Present = false := by
  rw [parsePipeline] at h
  split at h
  · exact Except.noConfusion h
  · split at h
    · exact Except.noConfusion h
    · split at h
      · exact Except.noConfusion h
      · exact parseRules_nil_present _ _ _ h

/-- Target files of already-logged entries are visited or still pending. -/
def pendingClosed (s : RState) (P : List String) : Prop :=
  ∀ e ∈ s.log, ∀ g ∈ targetFiles e.2, g ∈ s.visited ∨ g ∈ P

/-- What one sequentialized `RulesFromFile` call guarantees about the ghost
state: the visited set and log grow by appending; the file itself is
visited; the new log entries are distinct files, previously unvisited
(except possibly the file itself), and all visited; a new entry is either
this file's own parse or consists of non-present rules; target closure is
transferred; every visited file was visited before, is this file, is
logged, or cannot be parsed; and an error implies this file's parse
pipeline fails. -/
def RFFPost (fs : FileSys) (options : LintOptions) (pathname : String)
    (ranges : List Range) (s : RState) (res : Except String (List Rule))
    (s2 : RState) : Prop :=
  (∃ v2, s2.visited = s.visited ++ v2) ∧
  pathname ∈ s2.visited ∧
  (∃ l2, s2.log = s.log ++ l2 ∧
    (l2.map Prod.fst).Nodup ∧
    (∀ f ∈ l2.map Prod.fst, (f = pathname ∨ f ∉ s.visited) ∧ f ∈ s2.visited) ∧
    (∀ e ∈ l2, (e.1 = pathname ∧
        parsePipeline fs options pathname ranges = .ok e.2) ∨
      entryPresentFalse e) ∧
    (∀ rs, res = .ok rs → pathname ∈ l2.map Prod.fst)) ∧
  (∀ P, pendingClosed s P → pendingClosed s2 P) ∧
  (∀ f ∈ s2.visited, f ∈ s.visited ∨ f = pathname ∨ f ∈ s2.log.map Prod.fst ∨
    ∀ rs, parsePipeline fs options f [] ≠ .ok rs) ∧
  (∀ e, res = .error e → ∀ rs, parsePipeline fs options pathname ranges ≠ .ok rs)

/-- What the discovery loop over pending target files `gs` guarantees. -/
def DLPost (fs : FileSys) (options : LintOptions) (gs : List String)
    (s : RState) (res : Except String (List Rule)) (s2 : RState) : Prop :=
  (∃ v2, s2.visited = s.visited ++ v2) ∧
  (∀ g ∈ gs, g ∈ s2.visited) ∧
  (∃ l2, s2.log = s.log ++ l2 ∧
    (l2.map Prod.fst).Nodup ∧
    (∀ f ∈ l2.map Prod.fst, f ∉ s.visited ∧ f ∈ s2.visited) ∧
    (∀ e ∈ l2, entryPresentFalse e)) ∧
  (∀ P, pendingClosed s (gs ++ P) → pendingClosed s2 P) ∧
  (∀ f ∈ s2.visited, f ∈ s.visited ∨ f ∈ s2.log.map Prod.fst ∨
    ∀ rs, parsePipeline fs options f [] ≠ .ok rs) ∧
  (∃ rs, res = .ok rs)

/-- Composing one discovery step on an unvisited file with the rest of the
loop. -/
theorem DLPost_compose (fs : FileSys) (options : LintOptions) (g : String)
    (gs : List String) (s smid s2 : RState)
    (res resc : Except String (List Rule)) (hgnv : g ∉ s.visited)
    (C : RFFPost fs options g [] s resc smid)
    (T : DLPost fs options gs smid res s2) :
    DLPost fs options (g :: gs) s res s2 := by
  obtain ⟨⟨v2c, hv2c⟩, hgvis, ⟨l2c, hlc, hndc, hfc, hec, hokc⟩, hpcc, hr8c,
    herrc⟩ := C
  obtain ⟨⟨v2t, hv2t⟩, hgst, ⟨l2t, hlt, hndt, hft, het⟩, hpct, hr8t,
    hrest⟩ := T
  have hsubc : ∀ x ∈ s.visited, x ∈ smid.visited := by
    rw [hv2c]
    exact fun x hx => List.mem_append_left _ hx
  have hsubt : ∀ x ∈ smid.visited, x ∈ s2.visited := by
    rw [hv2t]
    exact fun x hx => List.mem_append_left _ hx
  have hlogt : ∀ x ∈ smid.log.map Prod.fst, x ∈ s2.log.map Prod.fst := by
    rw [hlt, List.map_append]
    exact fun x hx => List.mem_append_left _ hx
  refine ⟨⟨v2c ++ v2t, by rw [hv2t, hv2c, List.append_assoc]⟩, ?_,
    ⟨l2c ++ l2t, by rw [hlt, hlc, List.append_assoc], ?_, ?_, ?_⟩, ?_, ?_,
    hrest⟩
  · intro u hu
    rcases List.mem_cons.mp hu with rfl | hu2
    · exact hsubt u hgvis
    · exact hgst u hu2
  · rw [List.map_append]
    rw [List.nodup_append]
    refine ⟨hndc, hndt, fun f hf1 hf2 => ?_⟩
    exact (hft f hf2).1 ((hfc f hf1).2)
  · intro f hf
    rw [List.map_append] at hf
    rcases List.mem_append.mp hf with hf | hf
    · have := hfc f hf
      refine ⟨?_, hsubt f this.2⟩
      rcases this.1 with rfl | hns
      · exact hgnv
      · exact hns
    · have := hft f hf
      exact ⟨fun hm => this.1 (hsubc f hm), this.2⟩
  · intro e he
    rcases List.mem_append.mp he with he | he
    · rcases hec e he with ⟨_, hpp⟩ | hpf
      · exact fun r hr => parsePipeline_nil_present fs options g e.2 hpp r hr
      · exact hpf
    · exact het e he
  · intro P hP
    refine hpct P ?_
    intro e he g2 hg2
    rcases hpcc ((g :: gs) ++ P) hP e he g2 hg2 with h | h
    · exact Or.inl h
    · rw [List.cons_append, List.mem_cons] at h
      rcases h with rfl | h
      · exact Or.inl hgvis
      · exact Or.inr h
  · intro f hf
    rcases hr8t f hf with h | h | h
    · rcases hr8c f h with h2 | h2 | h2 | h2
      · exact Or.inl h2
      · subst h2
        cases hresc : resc with
        | error e => exact Or.inr (Or.inr (herrc e hresc))
        | ok rs => exact Or.inr (Or.inl (hlogt f (by
            rw [hlc, List.map_append]
            exact List.mem_append_right _ (hokc rs hresc))))
      · exact Or.inr (Or.inl (hlogt f h2))
      · exact Or.inr (Or.inr h2)
    · exact Or.inr (Or.inl h)
    · exact Or.inr (Or.inr h)

/-- The discovery loop satisfies `DLPost` whenever the step function (the
recursive `RulesFromFile` at the next fuel level) satisfies `RFFPost` on
unvisited files, given enough fuel. -/
theorem discoverLoop_spec (fs : FileSys) (options : LintOptions)
    (step : String → List Range → RState → Except String (List Rule) × RState)
    (F : Nat)
    (hstep : ∀ g s res s2, step g [] s = (res, s2) → g ∉ s.visited →
      missCount fs s.visited + 1 ≤ F → RFFPost fs options g [] s res s2) :
    ∀ (gs : List String) (acc : List Rule) (s : RState) res s2,
      discoverLoop step gs acc s = (res, s2) →
      missCount fs s.visited + 1 ≤ F →
      DLPost fs options gs s res s2 := by
  intro gs
  induction gs with
  | nil =>
    intro acc s res s2 hdl hfuel
    rw [discoverLoop] at hdl
    injection hdl with h1 h2
    subst h2
    refine ⟨⟨[], by simp⟩, by simp, ⟨[], by simp, by simp, by simp, by simp⟩,
      ?_, fun f hf => Or.inl hf, ⟨acc, h1.symm⟩⟩
    intro P hP e he g hg
    have := hP e he g hg
    simpa using this
  | cons g gs ih =>
    intro acc s res s2 hdl hfuel
    rw [discoverLoop] at hdl
    split at hdl
    · rename_i hgv
      obtain ⟨hv, hgs, hl, hpc, hr8, hres⟩ := ih acc s res s2 hdl hfuel
      refine ⟨hv, ?_, hl, ?_, hr8, hres⟩
      · intro u hu
        rcases List.mem_cons.mp hu with rfl | hu2
        · obtain ⟨v2, hv2⟩ := hv
          rw [hv2]
          exact List.mem_append_left _ hgv
        · exact hgs u hu2
      · intro P hP
        refine hpc P ?_
        intro e he g2 hg2
        rcases hP e he g2 hg2 with h | h
        · exact Or.inl h
        · rw [List.cons_append, List.mem_cons] at h
          rcases h with rfl | h
          · exact Or.inl hgv
          · exact Or.inr h
    · rename_i hgv
      split at hdl
      · rename_i e1 smid hcall
        exact DLPost_compose fs options g gs s smid s2 res (.error e1) hgv
          (hstep g s (.error e1) smid hcall hgv hfuel)
          (ih acc smid res s2 hdl (Nat.le_trans (Nat.succ_le_succ
            (missCount_mono fs s.visited smid.visited (by
              obtain ⟨v2c, hv2c⟩ :=
                (hstep g s (.error e1) smid hcall hgv hfuel).1
              rw [hv2c]
              exact fun x hx => List.mem_append_left _ hx))) hfuel))
      · rename_i more smid hcall
        exact DLPost_compose fs options g gs s smid s2 res (.ok more) hgv
          (hstep g s (.ok more) smid hcall hgv hfuel)
          (ih (acc ++ more) smid res s2 hdl (Nat.le_trans (Nat.succ_le_succ
            (missCount_mono fs s.visited smid.visited (by
              obtain ⟨v2c, hv2c⟩ :=
                (hstep g s (.ok more) smid hcall hgv hfuel).1
              rw [hv2c]
              exact fun x hx => List.mem_append_left _ hx))) hfuel))

/-- The sequentialized `RulesFromFile` satisfies `RFFPost`, given fuel
bounded below by the number of unvisited file-system paths (one extra unit
when re-entering a visited file, as the seed loop may). -/
theorem RulesFromFile_spec (fs : FileSys) (options : LintOptions) :
    ∀ (fuel : Nat) (pathname : String) (ranges : List Range) (s : RState)
      res s2,
      RulesFromFile fs options fuel pathname ranges s = (res, s2) →
      (pathname ∉ s.visited → missCount fs s.visited + 1 ≤ fuel) →
      (pathname ∈ s.visited → missCount fs s.visited + 2 ≤ fuel) →
      RFFPost fs options pathname ranges s res s2 := by
  intro fuel
  induction fuel with
  | zero =>
    intro pathname ranges s res s2 _ h1 h2
    by_cases hv : pathname ∈ s.visited
    · exact absurd (h2 hv) (by omega)
    · exact absurd (h1 hv) (by omega)
  | succ fuel ih =>
    intro pathname ranges s res s2 hrun h1 h2
    cases hpp : parsePipeline fs options pathname ranges with
    | error e =>
      simp only [RulesFromFile, hpp] at hrun
      injection hrun with hres hs2
      subst hs2
      subst hres
      refine ⟨⟨[pathname], rfl⟩, by simp,
        ⟨[], by simp, by simp, by simp, by simp,
          fun rs h => Except.noConfusion h⟩, ?_, ?_, ?_⟩
      · intro P hP e2 he2 g hg
        rcases hP e2 he2 g hg with h | h
        · exact Or.inl (List.mem_append_left _ h)
        · exact Or.inr h
      · intro f hf
        rcases List.mem_append.mp hf with h | h
        · exact Or.inl h
        · rw [List.mem_singleton] at h
          exact Or.inr (Or.inl h)
      · intro e2 he2 rs hrs
        rw [hpp] at hrs
        exact Except.noConfusion hrs
    | ok rules =>
      simp only [RulesFromFile, hpp] at hrun
      have hfuel2 : missCount fs (s.visited ++ [pathname]) + 1 ≤ fuel := by
        by_cases hv : pathname ∈ s.visited
        · have hb := h2 hv
          have hm : missCount fs (s.visited ++ [pathname]) ≤
              missCount fs s.visited :=
            missCount_mono _ _ _ (fun x hx => List.mem_append_left _ hx)
          omega
        · have hb := h1 hv
          have hmem := parsePipeline_ok_mem fs options pathname ranges rules hpp
          have hlt := missCount_visit_lt fs s.visited pathname hmem hv
          omega
      have hstep : ∀ g sg resg sg2,
          RulesFromFile fs options fuel g [] sg = (resg, sg2) →
          g ∉ sg.visited → missCount fs sg.visited + 1 ≤ fuel →
          RFFPost fs options g [] sg resg sg2 :=
        fun g sg resg sg2 hc hg hf =>
          ih g [] sg resg sg2 hc (fun _ => hf) (fun hm => absurd hm hg)
      obtain ⟨⟨v2t, hv2t⟩, hgst, ⟨l2t, hlt, hndt, hft, het⟩, hpct, hr8t,
        hrest⟩ :=
        discoverLoop_spec fs options _ fuel hstep (targetFiles rules) rules
          ⟨s.visited ++ [pathname], s.log ++ [(pathname, rules)]⟩ res s2
          hrun hfuel2
      have hpmem : pathname ∈ s2.visited := by
        rw [hv2t]
        exact List.mem_append_left _ (List.mem_append_right _ (by simp))
      refine ⟨⟨[pathname] ++ v2t, by rw [hv2t, List.append_assoc]⟩, hpmem,
        ⟨(pathname, rules) :: l2t,
          by rw [hlt, List.append_assoc, List.singleton_append], ?_, ?_, ?_,
          fun rs h => by simp⟩, ?_, ?_, ?_⟩
      · rw [List.map_cons, List.nodup_cons]
        refine ⟨fun hmem => ?_, hndt⟩
        exact (hft pathname hmem).1 (List.mem_append_right _ (by simp))
      · intro f hf
        rw [List.map_cons, List.mem_cons] at hf
        rcases hf with rfl | hf
        · exact ⟨Or.inl rfl, hpmem⟩
        · have := hft f hf
          exact ⟨Or.inr (fun hm => this.1 (List.mem_append_left _ hm)),
            this.2⟩
      · intro e2 he2
        rcases List.mem_cons.mp he2 with rfl | he2
        · exact Or.inl ⟨rfl, hpp⟩
        · exact Or.inr (het e2 he2)
      · intro P hP
        refine hpct P ?_
        intro e2 he2 g hg
        rcases List.mem_append.mp he2 with he2 | he2
        · rcases hP e2 he2 g hg with h | h
          · exact Or.inl (List.mem_append_left _ h)
          · exact Or.inr (List.mem_append_right _ h)
        · rw [List.mem_singleton] at he2
          subst he2
          exact Or.inr (List.mem_append_left _ hg)
      · intro f hf
        rcases hr8t f hf with h | h | h
        · rcases List.mem_append.mp h with h | h
          · exact Or.inl h
          · rw [List.mem_singleton] at h
            exact Or.inr (Or.inl h)
        · exact Or.inr (Or.inr (Or.inl h))
        · exact Or.inr (Or.inr (Or.inr h))
      · intro e2 he2 rs hrs
        obtain ⟨rs0, hok⟩ := hrest
        rw [he2] at hok
        exact Except.noConfusion hok

/-- The seed loop of the concurrent resolver preserves the C2 invariants:
every pending hunk file ends up parsed, the log only grows, target closure
holds, files outside the seed set are logged at most once, every visited
file is logged or unparseable, and entries for files outside the seed set
hold only non-present rules. -/
theorem seedLoop_spec (fs : FileSys) (options : LintOptions)
    (S : List String) :
    ∀ (pending : List (String × List Range)) (tm : List String)
      (rm : List (String × List Rule)) (s : RState) rm2 tm2 st,
      seedLoop fs options pending tm rm s = .ok (rm2, tm2, st) →
      (∀ p ∈ pending, p.1 ∈ S) →
      pendingClosed s [] →
      (∀ f, f ∉ S → (f ∉ s.visited → (s.log.map Prod.fst).count f = 0) ∧
        (s.log.map Prod.fst).count f ≤ 1) →
      (∀ f ∈ s.visited, f ∈ s.log.map Prod.fst ∨
        ∀ rs, parsePipeline fs options f [] ≠ .ok rs) →
      (∀ e ∈ s.log, e.1 ∉ S → entryPresentFalse e) →
      ((∀ p ∈ pending, p.1 ∈ st.log.map Prod.fst) ∧
       (∃ l2, st.log = s.log ++ l2) ∧
       pendingClosed st [] ∧
       (∀ f, f ∉ S → (st.log.map Prod.fst).count f ≤ 1) ∧
       (∀ f ∈ st.visited, f ∈ st.log.map Prod.fst ∨
         ∀ rs, parsePipeline fs options f [] ≠ .ok rs) ∧
       (∀ e ∈ st.log, e.1 ∉ S → entryPresentFalse e)) := by
  intro pending
  induction pending with
  | nil =>
    intro tm rm s rm2 tm2 st hsl hS hpc hJ hK hD
    rw [seedLoop] at hsl
    injection hsl with h
    injection h with h1 h23
    injection h23 with h2 h3
    subst h1
    subst h2
    subst h3
    exact ⟨by simp, ⟨[], by simp⟩, hpc, fun f hf => (hJ f hf).2, hK, hD⟩
  | cons pr pending ih =>
    intro tm rm s rm2 tm2 st hsl hS hpc hJ hK hD
    obtain ⟨pathname, ranges⟩ := pr
    rw [seedLoop] at hsl
    split at hsl
    · exact Except.noConfusion hsl
    · rename_i rules s1 hcall
      obtain ⟨⟨v2c, hv2c⟩, hpvis, ⟨l2c, hlc, hndc, hfc, hec, hokc⟩, hpcc,
        hr8c, herrc⟩ :=
        RulesFromFile_spec fs options (fs.length + 2) pathname ranges s
          (.ok rules) s1 hcall
          (fun _ => by have := missCount_le_length fs s.visited; omega)
          (fun _ => by have := missCount_le_length fs s.visited; omega)
      have hp1 : pathname ∈ S := hS (pathname, ranges) (by simp)
      have hpc1 : pendingClosed s1 [] := hpcc [] hpc
      have hJ1 : ∀ f, f ∉ S →
          (f ∉ s1.visited → (s1.log.map Prod.fst).count f = 0) ∧
          (s1.log.map Prod.fst).count f ≤ 1 := by
        intro f hf
        have hfp : f ≠ pathname := fun h => hf (h ▸ hp1)
        have hcount : (s1.log.map Prod.fst).count f =
            (s.log.map Prod.fst).count f + (l2c.map Prod.fst).count f := by
          rw [hlc, List.map_append, List.count_append]
        by_cases hfv : f ∈ s.visited
        · have hzero : (l2c.map Prod.fst).count f = 0 := by
            rw [List.count_eq_zero]
            intro hmem
            rcases (hfc f hmem).1 with h | h
            · exact hfp h
            · exact h hfv
          refine ⟨fun hfv1 => absurd ?_ hfv1, ?_⟩
          · rw [hv2c]
            exact List.mem_append_left _ hfv
          · rw [hcount, hzero]
            have := (hJ f hf).2
            omega
        · have h0 : (s.log.map Prod.fst).count f = 0 := (hJ f hf).1 hfv
          have hle1 : (l2c.map Prod.fst).count f ≤ 1 :=
            List.nodup_iff_count_le_one.mp hndc f
          constructor
          · intro hfv1
            have hz2 : (l2c.map Prod.fst).count f = 0 := by
              rw [List.count_eq_zero]
              intro hmem
              exact hfv1 ((hfc f hmem).2)
            rw [hcount, h0, hz2]
          · rw [hcount, h0]
            omega
      have hK1 : ∀ f ∈ s1.visited, f ∈ s1.log.map Prod.fst ∨
          ∀ rs, parsePipeline fs options f [] ≠ .ok rs := by
        intro f hf
        rcases hr8c f hf with h | h | h | h
        · rcases hK f h with h2 | h2
          · refine Or.inl ?_
            rw [hlc, List.map_append]
            exact List.mem_append_left _ h2
          · exact Or.inr h2
        · subst h
          refine Or.inl ?_
          rw [hlc, List.map_append]
          exact List.mem_append_right _ (hokc rules rfl)
        · exact Or.inl h
        · exact Or.inr h
      have hD1 : ∀ e ∈ s1.log, e.1 ∉ S → entryPresentFalse e := by
        intro e he hne
        rw [hlc] at he
        rcases List.mem_append.mp he with he | he
        · exact hD e he hne
        · rcases hec e he with ⟨h1, _⟩ | h2
          · exact absurd (h1 ▸ hp1) hne
          · exact h2
      obtain ⟨hA, ⟨l2t, hl2t⟩, hpcT, hJT, hKT, hDT⟩ :=
        ih _ _ s1 rm2 tm2 st hsl (fun p hp => hS p (by simp [hp])) hpc1 hJ1
          hK1 hD1
      refine ⟨?_, ⟨l2c ++ l2t, by rw [hl2t, hlc, List.append_assoc]⟩, hpcT,
        hJT, hKT, hDT⟩
      intro p hp
      rcases List.mem_cons.mp hp with rfl | hp2
      · have hmem : pathname ∈ s1.log.map Prod.fst := by
          rw [hlc, List.map_append]
          exact List.mem_append_right _ (hokc rules rfl)
        rw [hl2t, List.map_append]
        exact List.mem_append_left _ hmem
      · exact hA p hp2

/-- C2 amended: on success, the resolver parses every file owning a diff
hunk; every target file referenced by a parsed rule is scheduled (visited)
and — unless its parse pipeline cannot succeed — parsed; every file that
owns no diff hunk is parsed at most once (a hunk file targeted by an
earlier-processed hunk file's rule is parsed twice, as the counterexample
shows, because the seed loop never consults the visited set); and rules
parsed from a file with no diff hunks always have `Present = false`. -/
theorem C2_resolver_amended (fs : FileSys) (options : LintOptions)
    (hunks : List Hunk) (rulesMap : List (String × List Rule))
    (targetsMap : List String) (st : RState)
    (hok : RulesMapFromHunksConc fs hunks options =
      .ok (rulesMap, targetsMap, st)) :
    (∀ e ∈ rangesMapOf hunks, e.1 ∈ st.log.map Prod.fst) ∧
    (∀ e ∈ st.log, ∀ g ∈ targetFiles e.2, g ∈ st.visited ∧
      (g ∈ st.log.map Prod.fst ∨
        ∀ rs, parsePipeline fs options g [] ≠ .ok rs)) ∧
    (∀ f, f ∉ (rangesMapOf hunks).map Prod.fst →
      (st.log.map Prod.fst).count f ≤ 1) ∧
    (∀ e ∈ st.log, e.1 ∉ (rangesMapOf hunks).map Prod.fst →
      entryPresentFalse e) := by
  rw [RulesMapFromHunksConc] at hok
  obtain ⟨hA, -, hpcT, hJT, hKT, hDT⟩ :=
    seedLoop_spec fs options ((rangesMapOf hunks).map Prod.fst)
      (rangesMapOf hunks) _ [] ⟨[], []⟩ rulesMap targetsMap st hok
      (fun p hp => List.mem_map_of_mem Prod.fst hp)
      (by intro e he; simp at he)
      (by intro f _; exact ⟨fun _ => rfl, by simp⟩)
      (by intro f hf; simp at hf)
      (by intro e he; simp at he)
  refine ⟨hA, ?_, hJT, hDT⟩
  intro e he g hg
  have hvis : g ∈ st.visited := by
    rcases hpcT e he g hg with h | h
    · exact h
    · simp at h
  exact ⟨hvis, hKT g hvis⟩

/-- Witness applying `C2_resolver_amended` to a one-file, one-hunk tree. -/
theorem C2_resolver_amended_witness :
    "a" ∈ (RState.mk ["a"]
      [("a", [Rule.mk ⟨"a", ⟨1, 2⟩⟩ [] true none])]).log.map Prod.fst :=
  (C2_resolver_amended [("a", ["#LINT.IF", "#LINT.END"])] c2opts
    [Hunk.mk "a" ⟨1, 2⟩] [("a", [Rule.mk ⟨"a", ⟨1, 2⟩⟩ [] true none])] ["a"]
    (RState.mk ["a"] [("a", [Rule.mk ⟨"a", ⟨1, 2⟩⟩ [] true none])])
    (by decide)).1 ("a", [⟨1, 2⟩]) (by decide)
